import Mathlib

/-!
# Verification of the pandahub variant / element-store specification

A shallow embedding of the pandahub data model: per-kind document
collections carrying the variant overlay (`var_type`, `not_in_var`,
`variant`), the variant query-filter builder, the element-store read and
write operations, the table/document codec, the project lock manager,
the timeseries store and the network registry.  The repository ships the
Variants documentation, the change log and the tutorials but not the
Python library sources, so each operation is modelled from the
specification and documentation text and marked as such in its doc
comment.
-/

namespace PandaHub

/-- Modelled from the spec: the `var_type` field values of a stored element
document (`pandahub` library source absent from the repository snapshot);
the field can also be absent, which the data model treats as `base`. -/
inductive VarType where
  | base
  | change
  | addition
deriving DecidableEq, Repr

/-- Modelled from the spec: attribute values a table cell can hold — the
supported attribute types are numeric, boolean, categorical, text,
object (non-primitive, kept behind a type tag and serialized payload)
and geometry; `missing` is the explicit "no value" marker. -/
inductive AttrValue where
  | num (n : Int)
  | bVal (b : Bool)
  | cat (s : String)
  | txt (s : String)
  | objVal (tag payload : String)
  | geo (gtag : String) (coords : List (Int × Int))
  | missing
deriving DecidableEq, Repr

/-- Attribute lists of a row / element document. -/
abbrev Attrs := List (String × AttrValue)

/-- Modelled from the spec: one stored element document of a per-kind
collection (the `pandahub` library source is absent from the repository
snapshot).  `varType = none` models a document without a `var_type`
field; `notInVar` is the suppression list of a base document; `variant`
is the owning variant of a change/addition document. -/
structure Doc where
  index : Nat
  varType : Option VarType
  notInVar : List Nat
  variant : Option Nat
  attrs : Attrs
deriving DecidableEq, Repr

/-- A document counts as base when `var_type` is absent or equals `base`. -/
def isBase (d : Doc) : Bool :=
  d.varType = none ∨ d.varType = some .base

/-- Modelled from the spec: the mongodb query-filter language fragment the
variant filter builder emits (equality on `var_type`, `$exists` on
`var_type`, `$in` on `var_type`, `$ne` on the `not_in_var` array,
equality on `variant`, binary `$or`/`$and`). -/
inductive MQuery where
  | varTypeEq (t : VarType)
  | varTypeAbsent
  | varTypeIn (ts : List VarType)
  | notInVarNe (v : Nat)
  | variantEq (v : Nat)
  | orQ (q1 q2 : MQuery)
  | andQ (q1 q2 : MQuery)
deriving DecidableEq, Repr

/-- Mongodb evaluation of the query fragment on one document:
`{"var_type": t}` matches only a present field equal to `t`;
`{"var_type": {"$exists": false}}` matches an absent field;
`{"not_in_var": {"$ne": v}}` matches documents whose `not_in_var` array
does not contain `v` (an absent array also matches);
`{"variant": v}` matches a present `variant` field equal to `v`. -/
def mmatches : MQuery → Doc → Bool
  | .varTypeEq t, d => d.varType = some t
  | .varTypeAbsent, d => d.varType = none
  | .varTypeIn ts, d => ts.any fun t => d.varType = some t
  | .notInVarNe v, d => ¬ v ∈ d.notInVar
  | .variantEq v, d => d.variant = some v
  | .orQ q1 q2, d => mmatches q1 d || mmatches q2 d
  | .andQ q1 q2, d => mmatches q1 d && mmatches q2 d

/-- The pandahub error taxonomy: NotFound, Conflict, Denied, InvalidRequest. -/
inductive PHError where
  | notFound
  | conflict
  | denied
  | invalidRequest
deriving DecidableEq, Repr

/-- The requested variant context of `get_variant_filter`: the base
network, a single variant index, or a list of variant indices. -/
inductive VariantRequest where
  | baseOnly
  | one (v : Nat)
  | many (vs : List Nat)
deriving DecidableEq, Repr

/-- Modelled from the spec: `PandaHub.get_variant_filter` (library source
absent from the repository snapshot).  For the base variant it returns
`{"$or": [{"var_type": {"$exists": False}}, {"var_type": "base"}]}`; for
a single variant `v` it returns
`{"$or": [{"var_type": "base", "not_in_var": {"$ne": v}},
          {"var_type": {"$in": ["change", "addition"]}, "variant": v}]}`;
specifying the variant as a list raises an error (change log 0.3.8). -/
def get_variant_filter : VariantRequest → Except PHError MQuery
  | .baseOnly => .ok (.orQ .varTypeAbsent (.varTypeEq .base))
  | .one v => .ok (.orQ (.andQ (.varTypeEq .base) (.notInVarNe v))
      (.andQ (.varTypeIn [.change, .addition]) (.variantEq v)))
  | .many _ => .error .invalidRequest

/-- The document predicate of the emitted filter, with `none` standing
for the base-only context and `some v` for the single-variant context. -/
def variantFilter (ctx : Option Nat) (d : Doc) : Bool :=
  match ctx with
  | none => mmatches (.orQ .varTypeAbsent (.varTypeEq .base)) d
  | some v => mmatches (.orQ (.andQ (.varTypeEq .base) (.notInVarNe v))
      (.andQ (.varTypeIn [.change, .addition]) (.variantEq v))) d

/-- The data model's notion of a document being active in a variant
context: in the base context exactly the base documents (absence of
`var_type` is equivalent to `base`); in the context of variant `v` the
base documents not suppressed for `v` together with the change/addition
documents owned by `v`. -/
def activeIn (ctx : Option Nat) (d : Doc) : Bool :=
  match ctx with
  | none => isBase d
  | some v => (isBase d && ¬ v ∈ d.notInVar) ||
      ((d.varType = some .change || d.varType = some .addition) && d.variant = some v)

/-- The variant context named by a request: `none` for the base network,
`some v` for a single variant (list requests are rejected and name no
context). -/
def requestCtx : VariantRequest → Option Nat
  | .baseOnly => none
  | .one v => some v
  | .many _ => none

/-! ## Element store: per-kind collection, reads and variant writes -/

/-- A per-kind collection of element documents. -/
abbrev Collection := List Doc

/-- Override the attribute list `b` of a row with the updated pairs
`u` (updated keys win, untouched attributes keep their value). -/
def mergeAttrs (b u : Attrs) : Attrs :=
  u ++ b.filter fun kv => (u.lookup kv.fst).isNone

/-- The change document of variant `v` for index `i`. -/
def isChangeAt (i v : Nat) (d : Doc) : Bool :=
  d.varType = some .change ∧ d.index = i ∧ d.variant = some v

/-- The addition document of variant `v` at index `i`. -/
def isAdditionAt (i v : Nat) (d : Doc) : Bool :=
  d.varType = some .addition ∧ d.index = i ∧ d.variant = some v

/-- The base document with index `i`. -/
def baseAt (i : Nat) (d : Doc) : Bool :=
  isBase d ∧ d.index = i

/-- Insert variant `v` into the suppression list of the base document
with index `i`; all other documents are left unchanged. -/
def addNotInVar (i v : Nat) (d : Doc) : Doc :=
  if baseAt i d then
    { d with notInVar := if v ∈ d.notInVar then d.notInVar else v :: d.notInVar }
  else d

/-- Replace the attributes of the documents selected by `p` with their
merge with the update `u`. -/
def updAttrs (p : Doc → Bool) (u : Attrs) (d : Doc) : Doc :=
  if p d then { d with attrs := mergeAttrs d.attrs u } else d

/-- Modelled from the spec: `write_change` of the element store (library
source absent from the repository snapshot).  It upserts the single
`change` document for `(index, variant)` — updating the existing change
document, or the addition document owned by the variant at that index,
or creating a change document with attributes merged from the base row —
and marks the base row's `not_in_var` to include the variant.  Writing a
change against an index with neither a base nor an addition document
signals NotFound. -/
def write_change (s : Collection) (v i : Nat) (u : Attrs) : Except PHError Collection :=
  if (s.find? (isChangeAt i v)).isSome then
    .ok ((s.map (updAttrs (isChangeAt i v) u)).map (addNotInVar i v))
  else if (s.find? (isAdditionAt i v)).isSome then
    .ok ((s.map (updAttrs (isAdditionAt i v) u)).map (addNotInVar i v))
  else
    match s.find? (baseAt i) with
    | some b => .ok ((s.map (addNotInVar i v)) ++
        [⟨i, some .change, [], some v, mergeAttrs b.attrs u⟩])
    | none => .error .notFound

/-- The non-base (change/addition) document visible at index `i` in the
given variant context. -/
def overlayPred (ctx : Option Nat) (i : Nat) (d : Doc) : Bool :=
  variantFilter ctx d ∧ d.index = i ∧ ¬ isBase d

/-- The base document visible at index `i` in the given variant context. -/
def basePred (ctx : Option Nat) (i : Nat) (d : Doc) : Bool :=
  variantFilter ctx d ∧ d.index = i ∧ isBase d

/-- Modelled from the spec: the de-duplicated element-store read at one
index (library source absent from the repository snapshot) — query the
collection through the variant filter and prefer the change/addition
document over the base document when both match; only the attribute
values are returned. -/
def readAt (s : Collection) (ctx : Option Nat) (i : Nat) : Option Attrs :=
  match s.find? (overlayPred ctx i) with
  | some d => some d.attrs
  | none => (s.find? (basePred ctx i)).map Doc.attrs

/-- A document whose index takes part in addition-index allocation: the
base documents and the addition documents of every variant. -/
def relevantIdx (d : Doc) : Bool :=
  isBase d || d.varType = some .addition

/-- The maximum index over the base and addition documents of a
collection (`none` on a collection without such documents). -/
def maxRelIndex : Collection → Option Nat
  | [] => none
  | d :: rest =>
    match maxRelIndex rest with
    | none => if relevantIdx d then some d.index else none
    | some m => if relevantIdx d then some (max d.index m) else some m

/-- The freshly allocated addition index: one past the maximum existing
base/addition index, and 0 on an empty collection (change log 0.3.13
fixed integer index fetching on an empty collection). -/
def allocIndex (s : Collection) : Nat :=
  match maxRelIndex s with
  | none => 0
  | some m => m + 1

/-- Modelled from the spec: `write_addition` of the element store
(library source absent from the repository snapshot) — allocates a fresh
index strictly greater than any existing base or addition index for the
kind and inserts an `addition` document owned by the variant. -/
def write_addition (s : Collection) (v : Nat) (a : Attrs) : Nat × Collection :=
  let i := allocIndex s
  (i, s ++ [⟨i, some .addition, [], some v, a⟩])

/-- `write_addition` iterated over a list of attribute sets, returning
the allocated indices in order. -/
def write_additions (s : Collection) (v : Nat) : List Attrs → List Nat × Collection
  | [] => ([], s)
  | a :: rest =>
    let (i, s1) := write_addition s v a
    let (is, s2) := write_additions s1 v rest
    (i :: is, s2)

/-! ## Table codec -/

/-- The declared attribute types of the numeric-table boundary. -/
inductive AttrType where
  | numeric
  | boolean
  | categorical
  | text
  | objType
  | geometry
deriving DecidableEq, Repr

/-- Modelled from the spec: the encoded field values of a stored
document — primitives, an explicit null marker for "no value", a
(type tag, serialized payload) pair for non-primitive values and a
dedicated geometry encoding keeping the coordinates and a geometry tag. -/
inductive DocValue where
  | dnull
  | dint (n : Int)
  | dbool (b : Bool)
  | dstr (s : String)
  | dtagged (tag payload : String)
  | dgeo (gtag : String) (coords : List (Int × Int))
deriving DecidableEq, Repr

/-- Modelled from the spec: encoding of one attribute value into a
document field value — missing values become the explicit null marker,
primitives their primitive encodings, non-primitive values a type tag
plus serialized payload, geometries the geometry encoding. -/
def encodeValue : AttrValue → DocValue
  | .num n => .dint n
  | .bVal b => .dbool b
  | .cat s => .dstr s
  | .txt s => .dstr s
  | .objVal t p => .dtagged t p
  | .geo g cs => .dgeo g cs
  | .missing => .dnull

/-- Modelled from the spec: decoding of one document field value at a
declared attribute type; the null marker decodes to the explicit
"no value" marker at every type, and a field value of the wrong shape
for the declared type is an unsupported-attribute failure. -/
def decodeValue : AttrType → DocValue → Option AttrValue
  | _, .dnull => some .missing
  | .numeric, .dint n => some (.num n)
  | .boolean, .dbool b => some (.bVal b)
  | .categorical, .dstr s => some (.cat s)
  | .text, .dstr s => some (.txt s)
  | .objType, .dtagged t p => some (.objVal t p)
  | .geometry, .dgeo g cs => some (.geo g cs)
  | _, _ => none

/-- An attribute value inhabits a declared attribute type (the "no
value" marker inhabits every type). -/
def typeMatches : AttrValue → AttrType → Bool
  | .missing, _ => true
  | .num _, .numeric => true
  | .bVal _, .boolean => true
  | .cat _, .categorical => true
  | .txt _, .text => true
  | .objVal _ _, .objType => true
  | .geo _ _, .geometry => true
  | _, _ => false

/-- A table schema: the ordered named, typed attributes of a kind. -/
abbrev Schema := List (String × AttrType)

/-- A table row: the caller-visible integer index plus the attribute
values in schema order. -/
abbrev TableRow := Nat × List AttrValue

/-- A stored document produced by the codec: the `index` field plus the
named encoded attribute fields. -/
structure TDoc where
  index : Nat
  fields : List (String × DocValue)
deriving DecidableEq, Repr

/-- A value list is well typed for a schema when it has one value per
schema attribute, each inhabiting the declared type. -/
def rowWellTyped : Schema → List AttrValue → Bool
  | [], [] => true
  | nt :: rest, v :: vs => typeMatches v nt.2 && rowWellTyped rest vs
  | _, _ => false

/-- Modelled from the spec: `rows_to_documents` of the table codec
(library source absent from the repository snapshot) — one document per
row, the row's index preserved verbatim in the `index` field and each
attribute encoded under its schema name. -/
def rows_to_documents (sch : Schema) (rows : List TableRow) : List TDoc :=
  rows.map fun r => ⟨r.1, (sch.map Prod.fst).zip (r.2.map encodeValue)⟩

/-- Decode the named fields of one document back into the attribute
values of a row, in schema order: look each schema attribute up by name
and decode it at its declared type, failing if any attribute is missing
from the document or has an unsupported shape. -/
def decodeRow (sch : Schema) (fields : List (String × DocValue)) : Option (List AttrValue) :=
  match sch with
  | [] => some []
  | nt :: rest =>
    match (fields.lookup nt.1).bind (decodeValue nt.2), decodeRow rest fields with
    | some v, some vs => some (v :: vs)
    | _, _ => none

/-- Modelled from the spec: `documents_to_table` of the table codec
(library source absent from the repository snapshot) — decode every
document into a row at the declared schema, keeping the `index` field. -/
def documents_to_table (sch : Schema) (docs : List TDoc) : Option (List TableRow) :=
  match docs with
  | [] => some []
  | doc :: rest =>
    match decodeRow sch doc.fields, documents_to_table sch rest with
    | some vs, some rows => some ((doc.index, vs) :: rows)
    | _, _ => none

/-! ## Project lock manager -/

/-- Modelled from the spec: the lock record of a project — holder
identity, acquisition timestamp and optional expiry (library source
absent from the repository snapshot). -/
structure Lock where
  holder : String
  acquiredAt : Nat
  expiry : Option Nat
deriving DecidableEq, Repr

/-- The result of an acquire call: success (also on idempotent
re-acquire) or denied. -/
inductive AcqResult where
  | success
  | denied
deriving DecidableEq, Repr

/-- A lock record still counts at time `now` (a stale lock, past its
expiry, is treated as absent by any acquirer). -/
def lockActive (l : Lock) (now : Nat) : Bool :=
  match l.expiry with
  | none => true
  | some t => now ≤ t

/-- Modelled from the spec: `acquire` of the project lock manager
(library source absent from the repository snapshot) — if unlocked or
the lock expired, create a lock record for the holder and succeed; if
already locked by the same holder, succeed idempotently; if locked by a
different active holder, deny and leave the record unchanged.  `dur` is
the optional lock duration used for the new record's expiry. -/
def acquire (st : Option Lock) (h : String) (now : Nat) (dur : Option Nat) :
    AcqResult × Option Lock :=
  match st with
  | none => (.success, some ⟨h, now, dur.map (now + ·)⟩)
  | some l =>
    if lockActive l now then
      if l.holder = h then (.success, some l) else (.denied, some l)
    else (.success, some ⟨h, now, dur.map (now + ·)⟩)

/-- Modelled from the spec: `release` of the project lock manager —
removes the lock only when held by the caller; releasing a lock not held
by the caller is a denied no-op. -/
def release (st : Option Lock) (h : String) : AcqResult × Option Lock :=
  match st with
  | some l => if l.holder = h then (.success, none) else (.denied, st)
  | none => (.denied, none)

/-! ## Timeseries store -/

/-- Modelled from the spec: one stored timeseries document — the
`data_type` field, the caller-supplied queryable metadata and the data
payload (library source absent from the repository snapshot). -/
structure TsDoc where
  dataType : String
  metadata : List (String × String)
  series : List Int
deriving DecidableEq, Repr

/-- A metadata filter document matches a timeseries document when every
filter pair equals the corresponding stored field (`data_type` is
queryable like the metadata fields). -/
def tsMatches (flt : List (String × String)) (d : TsDoc) : Bool :=
  flt.all fun kv => (("data_type", d.dataType) :: d.metadata).lookup kv.1 = some kv.2

/-- Modelled from the spec: `get_timeseries_from_db` (library source
absent from the repository snapshot) — the single read requires the
metadata filter to match exactly one document, signalling NotFound on
zero matches and Conflict on several. -/
def get_timeseries_from_db (coll : List TsDoc) (flt : List (String × String)) :
    Except PHError (List Int) :=
  match coll.filter (tsMatches flt) with
  | [] => .error .notFound
  | [d] => .ok d.series
  | _ :: _ :: _ => .error .conflict

/-- Modelled from the spec: `multi_get_timeseries_from_db` (library
source absent from the repository snapshot) — returns the series of all
documents matching the metadata filter. -/
def multi_get_timeseries_from_db (coll : List TsDoc) (flt : List (String × String)) :
    List (List Int) :=
  (coll.filter (tsMatches flt)).map TsDoc.series

/-! ## Network registry -/

/-- Modelled from the spec: one entry of the project's network registry —
the `net_id` (`_id` field), the display name and the network payload
(library source absent from the repository snapshot). -/
structure NetEntry where
  netId : Nat
  name : String
  data : List (String × Attrs)
deriving DecidableEq, Repr

/-- The maximum `net_id` present in the registry. -/
def maxNetId : List NetEntry → Option Nat
  | [] => none
  | e :: rest =>
    match maxNetId rest with
    | none => some e.netId
    | some m => some (max e.netId m)

/-- The freshly allocated `net_id`: one past the maximum registered id,
0 on an empty registry. -/
def allocNetId (reg : List NetEntry) : Nat :=
  match maxNetId reg with
  | none => 0
  | some m => m + 1

/-- Modelled from the spec: `write_network_to_db` (library source absent
from the repository snapshot) — stores a network under a caller-supplied
`net_id` or a freshly allocated one; no name-uniqueness check is
performed (change log 0.3.9: networks are unique only by their
`net_id`), so the write always succeeds. -/
def write_network_to_db (reg : List NetEntry) (name : String)
    (data : List (String × Attrs)) (netId : Option Nat) : Nat × List NetEntry :=
  let i := netId.getD (allocNetId reg)
  (i, reg ++ [⟨i, name, data⟩])

/-- Modelled from the spec: `get_network` looks a network up solely by
its `net_id` (change log 0.3.9: a string argument looks up on the `_id`
field rather than remapping to the name). -/
def get_network (reg : List NetEntry) (i : Nat) : Option NetEntry :=
  reg.find? fun e => e.netId = i

/-! ## Theorems -/

theorem variantFilter_eq_active_of_present (ctx : Option Nat) (d : Doc)
    (h : ctx = none ∨ d.varType ≠ none) :
    variantFilter ctx d = activeIn ctx d := by
  cases ctx with
  | none =>
    rw [Bool.eq_iff_iff]
    simp [variantFilter, mmatches, activeIn, isBase]
  | some v =>
    rcases h with h | h
    · exact absurd h (by simp)
    rcases hv : d.varType with _ | t
    · exact absurd hv h
    rw [Bool.eq_iff_iff]
    cases t <;> simp [variantFilter, mmatches, activeIn, isBase, hv]

/-- C1 (counterexample): the claimed equivalence between the emitted
single-variant filter and activity in that variant fails for a document
whose `var_type` field is absent: the data model treats absence as
`base`, so the document is active in variant 1 (it is not suppressed),
but the filter clause `{"var_type": "base"}` does not match an absent
field. -/
theorem variant_filter_misses_absent_var_type :
    get_variant_filter (.one 1) =
      .ok (.orQ (.andQ (.varTypeEq .base) (.notInVarNe 1))
        (.andQ (.varTypeIn [.change, .addition]) (.variantEq 1))) ∧
    mmatches (.orQ (.andQ (.varTypeEq .base) (.notInVarNe 1))
        (.andQ (.varTypeIn [.change, .addition]) (.variantEq 1)))
      ⟨0, none, [], none, []⟩ = false ∧
    activeIn (requestCtx (.one 1)) ⟨0, none, [], none, []⟩ = true :=
  ⟨rfl, by decide, by decide⟩

/-- C1 (amended): for the base-only request the emitted predicate holds
of a document iff the document is active in the base context, for every
document; for a single-variant request the same equivalence holds for
every document that carries an explicit `var_type` field (documents with
the field absent are missed by the single-variant filter). -/
theorem get_variant_filter_matches_iff_active (r : VariantRequest) (q : MQuery) (d : Doc)
    (hq : get_variant_filter r = .ok q)
    (h : r = .baseOnly ∨ d.varType ≠ none) :
    mmatches q d = activeIn (requestCtx r) d := by
  cases r with
  | baseOnly =>
    cases hq
    exact variantFilter_eq_active_of_present none d (Or.inl rfl)
  | one v =>
    cases hq
    refine variantFilter_eq_active_of_present (some v) d ?_
    rcases h with h | h
    · exact absurd h (by simp)
    · exact Or.inr h
  | many vs => cases hq

/-- C1 (witness): the amended equivalence evaluated on a concrete base
document with an explicit `var_type` field, in the context of variant 1. -/
theorem get_variant_filter_matches_iff_active_witness :
    mmatches (.orQ (.andQ (.varTypeEq .base) (.notInVarNe 1))
        (.andQ (.varTypeIn [.change, .addition]) (.variantEq 1)))
      ⟨2, some .base, [3], none, []⟩ =
      activeIn (requestCtx (.one 1)) ⟨2, some .base, [3], none, []⟩ :=
  get_variant_filter_matches_iff_active (.one 1) _ _ rfl (Or.inr (by decide))

/-- C5: requesting more than one variant simultaneously (the variant
given as a list of two or more identifiers) is rejected with an
InvalidRequest error instead of a merged predicate (change log 0.3.8:
specifying variant as list raises an error). -/
theorem get_variant_filter_rejects_multi (vs : List Nat) (_h : 2 ≤ vs.length) :
    get_variant_filter (.many vs) = .error .invalidRequest := rfl

/-- C5 (witness): the two-variant request `[0, 1]` is rejected. -/
theorem get_variant_filter_rejects_multi_witness :
    2 ≤ [0, 1].length ∧ get_variant_filter (.many [0, 1]) = .error .invalidRequest :=
  ⟨by decide, get_variant_filter_rejects_multi [0, 1] (by decide)⟩

/-! ### Structural lemmas about the write-path document transformers -/

@[simp] theorem addNotInVar_index (i v : Nat) (d : Doc) :
    (addNotInVar i v d).index = d.index := by
  unfold addNotInVar; split <;> rfl

@[simp] theorem addNotInVar_varType (i v : Nat) (d : Doc) :
    (addNotInVar i v d).varType = d.varType := by
  unfold addNotInVar; split <;> rfl

@[simp] theorem addNotInVar_variant (i v : Nat) (d : Doc) :
    (addNotInVar i v d).variant = d.variant := by
  unfold addNotInVar; split <;> rfl

@[simp] theorem addNotInVar_attrs (i v : Nat) (d : Doc) :
    (addNotInVar i v d).attrs = d.attrs := by
  unfold addNotInVar; split <;> rfl

@[simp] theorem isBase_addNotInVar (i v : Nat) (d : Doc) :
    isBase (addNotInVar i v d) = isBase d := by
  unfold isBase; rw [addNotInVar_varType]

theorem mem_addNotInVar_self (i v : Nat) (d : Doc) (hb : isBase d) (hi : d.index = i) :
    v ∈ (addNotInVar i v d).notInVar := by
  have hba : baseAt i d := by simp [baseAt, hb, hi]
  simp only [addNotInVar, hba, if_true]
  split
  · assumption
  · exact List.mem_cons_self _ _

theorem mem_addNotInVar_of_mem (i v w : Nat) (d : Doc) (hw : w ∈ d.notInVar) :
    w ∈ (addNotInVar i v d).notInVar := by
  unfold addNotInVar
  split
  · split
    · exact hw
    · exact List.mem_cons_of_mem _ hw
  · exact hw

theorem mem_addNotInVar_iff (i v w : Nat) (d : Doc) (hvw : w ≠ v) :
    w ∈ (addNotInVar i v d).notInVar ↔ w ∈ d.notInVar := by
  unfold addNotInVar
  split
  · split
    · exact Iff.rfl
    · simp [List.mem_cons, hvw]
  · exact Iff.rfl

@[simp] theorem updAttrs_index (p : Doc → Bool) (u : Attrs) (d : Doc) :
    (updAttrs p u d).index = d.index := by
  unfold updAttrs; split <;> rfl

@[simp] theorem updAttrs_varType (p : Doc → Bool) (u : Attrs) (d : Doc) :
    (updAttrs p u d).varType = d.varType := by
  unfold updAttrs; split <;> rfl

@[simp] theorem updAttrs_variant (p : Doc → Bool) (u : Attrs) (d : Doc) :
    (updAttrs p u d).variant = d.variant := by
  unfold updAttrs; split <;> rfl

@[simp] theorem updAttrs_notInVar (p : Doc → Bool) (u : Attrs) (d : Doc) :
    (updAttrs p u d).notInVar = d.notInVar := by
  unfold updAttrs; split <;> rfl

@[simp] theorem isBase_updAttrs (p : Doc → Bool) (u : Attrs) (d : Doc) :
    isBase (updAttrs p u d) = isBase d := by
  unfold isBase; rw [updAttrs_varType]

theorem updAttrs_of_neg (p : Doc → Bool) (u : Attrs) (d : Doc) (h : ¬ p d) :
    updAttrs p u d = d := by
  simp [updAttrs, h]

theorem isChangeAt_false_of_base (i v : Nat) (d : Doc) (hb : isBase d) :
    isChangeAt i v d = false := by
  simp only [isBase, decide_eq_true_eq] at hb
  rcases hb with h | h <;> simp [isChangeAt, h]

theorem isAdditionAt_false_of_base (i v : Nat) (d : Doc) (hb : isBase d) :
    isAdditionAt i v d = false := by
  simp only [isBase, decide_eq_true_eq] at hb
  rcases hb with h | h <;> simp [isAdditionAt, h]

/-! ### Index allocation lemmas -/

theorem le_maxRelIndex (s : Collection) (d : Doc) (hd : d ∈ s) (hr : relevantIdx d) :
    ∃ m, maxRelIndex s = some m ∧ d.index ≤ m := by
  induction s with
  | nil => cases hd
  | cons a rest ih =>
    rcases List.mem_cons.mp hd with rfl | hd'
    · cases hm : maxRelIndex rest with
      | none => exact ⟨d.index, by simp [maxRelIndex, hm, hr], le_refl _⟩
      | some m => exact ⟨max d.index m, by simp [maxRelIndex, hm, hr], le_max_left _ _⟩
    · obtain ⟨m, hm, hle⟩ := ih hd'
      unfold maxRelIndex
      rw [hm]
      cases hra : relevantIdx a
      · exact ⟨m, by simp [hra], hle⟩
      · exact ⟨max a.index m, by simp [hra], le_trans hle (le_max_right _ _)⟩

theorem index_lt_allocIndex (s : Collection) (d : Doc) (hd : d ∈ s) (hr : relevantIdx d) :
    d.index < allocIndex s := by
  obtain ⟨m, hm, hle⟩ := le_maxRelIndex s d hd hr
  have ha : allocIndex s = m + 1 := by simp only [allocIndex, hm]
  omega

/-! ### C2: suppression propagation -/

/-- C2: after every successful `write_change` for variant `v` at index
`i`, every base element with index `i` has `v` in its `not_in_var` list;
the write never removes an existing `not_in_var` entry of a base
element; and the same holds after `write_addition` (vacuously, since the
freshly allocated index collides with no base element). -/
theorem write_change_marks_not_in_var (s s' : Collection) (v i : Nat) (u : Attrs)
    (hw : write_change s v i u = .ok s') :
    (∀ d ∈ s', isBase d → d.index = i → v ∈ d.notInVar) ∧
    (∀ d ∈ s, isBase d → ∀ w ∈ d.notInVar,
      ∃ d' ∈ s', d'.index = d.index ∧ isBase d' ∧ w ∈ d'.notInVar) ∧
    (∀ d ∈ (write_addition s v u).2, isBase d → d.index = (write_addition s v u).1 →
      v ∈ d.notInVar) := by
  refine ⟨?_, ?_, ?_⟩
  · intro d hd hb hi
    unfold write_change at hw
    split at hw
    · cases hw
      obtain ⟨y, hy, rfl⟩ := List.mem_map.mp hd
      exact mem_addNotInVar_self i v y (by simpa using hb) (by simpa using hi)
    split at hw
    · cases hw
      obtain ⟨y, hy, rfl⟩ := List.mem_map.mp hd
      exact mem_addNotInVar_self i v y (by simpa using hb) (by simpa using hi)
    split at hw
    · cases hw
      rcases List.mem_append.mp hd with hd' | hd'
      · obtain ⟨y, hy, rfl⟩ := List.mem_map.mp hd'
        exact mem_addNotInVar_self i v y (by simpa using hb) (by simpa using hi)
      · rw [List.mem_singleton.mp hd'] at hb
        simp [isBase] at hb
    · cases hw
  · intro d hd hb w hw'
    unfold write_change at hw
    split at hw
    · cases hw
      refine ⟨addNotInVar i v d, ?_, by simp, by simp [hb], mem_addNotInVar_of_mem i v w d hw'⟩
      refine List.mem_map.mpr ⟨updAttrs (isChangeAt i v) u d, List.mem_map.mpr ⟨d, hd, rfl⟩, ?_⟩
      rw [updAttrs_of_neg _ _ _ (by simp [isChangeAt_false_of_base i v d hb])]
    split at hw
    · cases hw
      refine ⟨addNotInVar i v d, ?_, by simp, by simp [hb], mem_addNotInVar_of_mem i v w d hw'⟩
      refine List.mem_map.mpr ⟨updAttrs (isAdditionAt i v) u d, List.mem_map.mpr ⟨d, hd, rfl⟩, ?_⟩
      rw [updAttrs_of_neg _ _ _ (by simp [isAdditionAt_false_of_base i v d hb])]
    split at hw
    · cases hw
      exact ⟨addNotInVar i v d, List.mem_append_left _ (List.mem_map.mpr ⟨d, hd, rfl⟩),
        by simp, by simp [hb], mem_addNotInVar_of_mem i v w d hw'⟩
    · cases hw
  · intro d hd hb hi
    simp only [write_addition] at hd hi
    rcases List.mem_append.mp hd with hd' | hd'
    · have hr : relevantIdx d := by simp [relevantIdx, hb]
      have := index_lt_allocIndex s d hd' hr
      omega
    · rw [List.mem_singleton.mp hd'] at hb
      simp [isBase] at hb

/-- C2 (witness): writing a change for variant 1 at index 5 against a
collection holding only the base document with index 5 puts 1 into that
base document's `not_in_var` list. -/
theorem write_change_marks_not_in_var_witness :
    1 ∈ (Doc.mk 5 (some .base) [1] none []).notInVar :=
  (write_change_marks_not_in_var [⟨5, some .base, [], none, []⟩]
      [⟨5, some .base, [1], none, []⟩, ⟨5, some .change, [], some 1, []⟩] 1 5 [] rfl).1
    ⟨5, some .base, [1], none, []⟩ (List.mem_cons_self _ _) (by decide) rfl

/-! ### Variant-filter invariance under the write-path transformers -/

theorem variantFilter_updAttrs (ctx : Option Nat) (p : Doc → Bool) (u : Attrs) (d : Doc) :
    variantFilter ctx (updAttrs p u d) = variantFilter ctx d := by
  cases ctx <;> simp [variantFilter, mmatches]

theorem variantFilter_addNotInVar (ctx : Option Nat) (i v : Nat) (d : Doc)
    (hctx : ctx ≠ some v) :
    variantFilter ctx (addNotInVar i v d) = variantFilter ctx d := by
  cases ctx with
  | none => simp [variantFilter, mmatches]
  | some w =>
    have hvw : w ≠ v := fun h => hctx (by rw [h])
    have hmem := mem_addNotInVar_iff i v w d hvw
    simp [variantFilter, mmatches, hmem]

theorem variantFilter_false_of_changeAt (ctx : Option Nat) (i v : Nat) (d : Doc)
    (hc : isChangeAt i v d) (hctx : ctx ≠ some v) :
    variantFilter ctx d = false := by
  simp only [isChangeAt, decide_eq_true_eq] at hc
  obtain ⟨ht, hi, hv⟩ := hc
  cases ctx with
  | none => simp [variantFilter, mmatches, ht]
  | some w =>
    have hwv : w ≠ v := fun h => hctx (by rw [h])
    simp [variantFilter, mmatches, ht, hv, Ne.symm hwv]

theorem variantFilter_false_of_additionAt (ctx : Option Nat) (i v : Nat) (d : Doc)
    (hc : isAdditionAt i v d) (hctx : ctx ≠ some v) :
    variantFilter ctx d = false := by
  simp only [isAdditionAt, decide_eq_true_eq] at hc
  obtain ⟨ht, hi, hv⟩ := hc
  cases ctx with
  | none => simp [variantFilter, mmatches, ht]
  | some w =>
    have hwv : w ≠ v := fun h => hctx (by rw [h])
    simp [variantFilter, mmatches, ht, hv, Ne.symm hwv]

/-! ### `find?` congruence machinery for the read path -/

theorem find?_map_attrs_congr (p : Doc → Bool) (f : Doc → Doc) (s : List Doc)
    (hp : ∀ d, p (f d) = p d) (ha : ∀ d, p d = true → (f d).attrs = d.attrs) :
    ((s.map f).find? p).map Doc.attrs = (s.find? p).map Doc.attrs := by
  induction s with
  | nil => rfl
  | cons d rest ih =>
    cases hpd : p d with
    | false =>
      rw [List.map_cons, List.find?_cons_of_neg _ (by rw [hp]; simp [hpd]),
        List.find?_cons_of_neg _ (by simp [hpd])]
      exact ih
    | true =>
      rw [List.map_cons, List.find?_cons_of_pos _ (by rw [hp]; exact hpd),
        List.find?_cons_of_pos _ hpd]
      simp [ha d hpd]

theorem find?_append_singleton_neg {α : Type} (p : α → Bool) (s : List α) (x : α)
    (hx : p x = false) : (s ++ [x]).find? p = s.find? p := by
  rw [List.find?_append]
  have h1 : ([x] : List α).find? p = none := by
    rw [List.find?_cons_of_neg _ (by simp [hx])]
    rfl
  rw [h1]
  cases s.find? p <;> rfl

theorem find?_eq_some_unique {α : Type} (p : α → Bool) (s : List α) (d : α)
    (hd : d ∈ s) (hpd : p d = true) (huniq : ∀ e ∈ s, p e = true → e = d) :
    s.find? p = some d := by
  induction s with
  | nil => cases hd
  | cons a rest ih =>
    cases hpa : p a with
    | false =>
      rw [List.find?_cons_of_neg _ (by simp [hpa])]
      refine ih ?_ fun e he hpe => huniq e (List.mem_cons_of_mem _ he) hpe
      rcases List.mem_cons.mp hd with rfl | h
      · rw [hpd] at hpa; cases hpa
      · exact h
    | true =>
      rw [List.find?_cons_of_pos _ hpa]
      rw [huniq a (List.mem_cons_self _ _) hpa]

theorem readAt_congr (s s' : Collection) (ctx : Option Nat) (j : Nat)
    (hov : ((s'.find? (overlayPred ctx j)).map Doc.attrs) =
      ((s.find? (overlayPred ctx j)).map Doc.attrs))
    (hb : ((s'.find? (basePred ctx j)).map Doc.attrs) =
      ((s.find? (basePred ctx j)).map Doc.attrs)) :
    readAt s' ctx j = readAt s ctx j := by
  unfold readAt
  cases h : s.find? (overlayPred ctx j) with
  | none =>
    have h' : s'.find? (overlayPred ctx j) = none := by
      rw [h] at hov
      simpa using hov
    rw [h']
    exact hb
  | some d =>
    rw [h] at hov
    cases h' : s'.find? (overlayPred ctx j) with
    | none => rw [h'] at hov; simp at hov
    | some e =>
      rw [h'] at hov
      simp only [Option.map_some'] at hov
      simp only [Option.some.injEq] at hov
      simp [hov]

theorem readAt_map_congr (s : Collection) (ctx : Option Nat) (j : Nat) (f : Doc → Doc)
    (hfil : ∀ d, variantFilter ctx (f d) = variantFilter ctx d)
    (hidx : ∀ d, (f d).index = d.index)
    (hbase : ∀ d, isBase (f d) = isBase d)
    (hattrs : ∀ d, variantFilter ctx d = true → (f d).attrs = d.attrs) :
    readAt (s.map f) ctx j = readAt s ctx j := by
  apply readAt_congr <;>
  · apply find?_map_attrs_congr
    · intro d
      simp [overlayPred, basePred, hfil, hidx, hbase]
    · intro d hd
      apply hattrs
      simp only [overlayPred, basePred, Bool.and_eq_true, decide_eq_true_eq] at hd
      exact hd.1

theorem readAt_append_singleton (l : Collection) (ctx : Option Nat) (j : Nat) (c : Doc)
    (h1 : overlayPred ctx j c = false) (h2 : basePred ctx j c = false) :
    readAt (l ++ [c]) ctx j = readAt l ctx j := by
  unfold readAt
  rw [find?_append_singleton_neg _ _ _ h1, find?_append_singleton_neg _ _ _ h2]

/-! ### C3: variant isolation of `write_change` -/

/-- C3: a successful `write_change` for variant `v1` changes neither the
base read nor the read of any other variant `v2 ≠ v1`, at any index. -/
theorem write_change_variant_isolation (s s' : Collection) (v1 i : Nat) (u : Attrs)
    (hw : write_change s v1 i u = .ok s') :
    (∀ j, readAt s' none j = readAt s none j) ∧
    (∀ v2, v2 ≠ v1 → ∀ j, readAt s' (some v2) j = readAt s (some v2) j) := by
  have key : ∀ ctx : Option Nat, ctx ≠ some v1 → ∀ j, readAt s' ctx j = readAt s ctx j := by
    intro ctx hctx j
    unfold write_change at hw
    split at hw
    · cases hw
      rw [List.map_map]
      apply readAt_map_congr
      · intro d
        simp only [Function.comp_apply]
        rw [variantFilter_addNotInVar _ _ _ _ hctx, variantFilter_updAttrs]
      · intro d; simp
      · intro d; simp
      · intro d hfd
        simp only [Function.comp_apply, addNotInVar_attrs]
        cases hc : isChangeAt i v1 d with
        | false => rw [updAttrs_of_neg _ _ _ (by simp [hc])]
        | true =>
          rw [variantFilter_false_of_changeAt ctx i v1 d hc hctx] at hfd
          cases hfd
    split at hw
    · cases hw
      rw [List.map_map]
      apply readAt_map_congr
      · intro d
        simp only [Function.comp_apply]
        rw [variantFilter_addNotInVar _ _ _ _ hctx, variantFilter_updAttrs]
      · intro d; simp
      · intro d; simp
      · intro d hfd
        simp only [Function.comp_apply, addNotInVar_attrs]
        cases hc : isAdditionAt i v1 d with
        | false => rw [updAttrs_of_neg _ _ _ (by simp [hc])]
        | true =>
          rw [variantFilter_false_of_additionAt ctx i v1 d hc hctx] at hfd
          cases hfd
    split at hw
    case h_1 b hb =>
      cases hw
      have hcd : isChangeAt i v1 ⟨i, some .change, [], some v1, mergeAttrs b.attrs u⟩ := by
        simp [isChangeAt]
      have hfc : variantFilter ctx ⟨i, some .change, [], some v1, mergeAttrs b.attrs u⟩ = false :=
        variantFilter_false_of_changeAt ctx i v1 _ hcd hctx
      rw [readAt_append_singleton _ ctx j _ (by simp [overlayPred, hfc]) (by simp [basePred, hfc])]
      apply readAt_map_congr
      · intro d
        rw [variantFilter_addNotInVar _ _ _ _ hctx]
      · intro d; simp
      · intro d; simp
      · intro d _
        exact addNotInVar_attrs i v1 d
    case h_2 => cases hw
  exact ⟨fun j => key none (by simp) j, fun v2 hv2 j => key (some v2) (by simp [hv2]) j⟩

/-- C3 (witness): writing `in_service := false` as a change of variant 1
for the bus at index 2 leaves both the base read and the read of
variant 2 at index 2 unchanged. -/
theorem write_change_variant_isolation_witness :
    (readAt [⟨2, some .base, [1], none, [("in_service", .bVal true)]⟩,
        ⟨2, some .change, [], some 1, [("in_service", .bVal false)]⟩] none 2 =
      readAt [⟨2, some .base, [], none, [("in_service", .bVal true)]⟩] none 2) ∧
    (readAt [⟨2, some .base, [1], none, [("in_service", .bVal true)]⟩,
        ⟨2, some .change, [], some 1, [("in_service", .bVal false)]⟩] (some 2) 2 =
      readAt [⟨2, some .base, [], none, [("in_service", .bVal true)]⟩] (some 2) 2) :=
  ⟨(write_change_variant_isolation [⟨2, some .base, [], none, [("in_service", .bVal true)]⟩]
      _ 1 2 [("in_service", .bVal false)] rfl).1 2,
   (write_change_variant_isolation [⟨2, some .base, [], none, [("in_service", .bVal true)]⟩]
      _ 1 2 [("in_service", .bVal false)] rfl).2 2 (by decide) 2⟩

/-! ### C9: propagation of base state into variants -/

/-- C9: a base element (with an explicit `var_type = base` field, as the
Variants documentation states all elements carry the field) whose index
has no change/addition document for variant `V` and which is not
suppressed for `V` is returned by the variant-`V` read with its current
base attribute values, so base updates propagate to the variant. -/
theorem base_propagates_to_variant (s : Collection) (V i : Nat) (d : Doc)
    (hd : d ∈ s) (hb : d.varType = some .base) (hi : d.index = i)
    (hsup : ¬ V ∈ d.notInVar)
    (hnochg : ∀ e ∈ s, e.varType = some .change ∨ e.varType = some .addition →
      e.index = i → e.variant ≠ some V)
    (huniq : ∀ e ∈ s, isBase e → e.index = i → e = d) :
    readAt s (some V) i = some d.attrs := by
  unfold readAt
  have hov : s.find? (overlayPred (some V) i) = none := by
    rw [List.find?_eq_none]
    intro e he hcon
    simp only [overlayPred, Bool.and_eq_true, decide_eq_true_eq, Bool.not_eq_true'] at hcon
    obtain ⟨hf, hidx, hnb⟩ := hcon
    simp only [variantFilter, mmatches, Bool.or_eq_true, Bool.and_eq_true,
      decide_eq_true_eq, List.any_cons, List.any_nil, Bool.or_false] at hf
    rcases hf with ⟨hbase, _⟩ | ⟨hca, hvar⟩
    · simp [isBase, hbase] at hnb
    · exact hnochg e he (by tauto) hidx hvar
  rw [hov]
  have hbp : basePred (some V) i d = true := by
    simp [basePred, variantFilter, mmatches, isBase, hb, hi, hsup]
  rw [find?_eq_some_unique (basePred (some V) i) s d hd hbp ?_]
  · rfl
  · intro e he hpe
    simp only [basePred, Bool.and_eq_true, decide_eq_true_eq] at hpe
    exact huniq e he hpe.2.2 hpe.2.1

/-- C9 (witness): the unsuppressed base bus at index 0 is visible in
variant 1 with its current attribute values. -/
theorem base_propagates_to_variant_witness :
    readAt [⟨0, some .base, [], none, [("p_mw", .num 3)]⟩] (some 1) 0 =
      some [("p_mw", .num 3)] :=
  base_propagates_to_variant [⟨0, some .base, [], none, [("p_mw", .num 3)]⟩] 1 0
    ⟨0, some .base, [], none, [("p_mw", .num 3)]⟩ (List.mem_cons_self _ _) rfl rfl
    (by decide) (by decide) (by decide)

/-! ### C7: fresh index allocation for additions -/

theorem write_additions_cons (s : Collection) (v : Nat) (a : Attrs) (rest : List Attrs) :
    write_additions s v (a :: rest) =
      ((write_addition s v a).1 :: (write_additions (write_addition s v a).2 v rest).1,
        (write_additions (write_addition s v a).2 v rest).2) := rfl

theorem write_additions_strict_mono (s : Collection) (v : Nat) (us : List Attrs) :
    (∀ n ∈ (write_additions s v us).1, ∀ d ∈ s, relevantIdx d → d.index < n) ∧
    List.Pairwise (· < ·) (write_additions s v us).1 := by
  induction us generalizing s with
  | nil => exact ⟨by simp [write_additions], by simp [write_additions]⟩
  | cons a rest ih =>
    have hD : relevantIdx ⟨allocIndex s, some .addition, [], some v, a⟩ := by
      simp [relevantIdx]
    have h1 := (ih (s ++ [⟨allocIndex s, some .addition, [], some v, a⟩])).1
    have h2 := (ih (s ++ [⟨allocIndex s, some .addition, [], some v, a⟩])).2
    constructor
    · intro n hn d hd hr
      rw [write_additions_cons] at hn
      simp only [write_addition] at hn
      rcases List.mem_cons.mp hn with rfl | hn'
      · exact index_lt_allocIndex s d hd hr
      · exact h1 n hn' d (List.mem_append_left _ hd) hr
    · rw [write_additions_cons]
      simp only [write_addition]
      refine List.Pairwise.cons ?_ h2
      intro n hn
      exact h1 n hn _ (List.mem_append_right _ (List.mem_singleton_self _)) hD

/-- C7: `write_addition` returns an index strictly greater than the
index of every existing base or addition document of the kind (whatever
variant the addition belongs to); it succeeds on an empty collection
(returning index 0); and iterated `write_addition` calls return strictly
increasing, hence pairwise distinct, indices, all greater than every
index present before the first call. -/
theorem write_addition_allocates_fresh (s : Collection) (v : Nat) (a : Attrs)
    (us : List Attrs) :
    (∀ d ∈ s, relevantIdx d → d.index < (write_addition s v a).1) ∧
    (write_addition ([] : Collection) v a).1 = 0 ∧
    List.Pairwise (· < ·) (write_additions s v us).1 ∧
    List.Pairwise (· ≠ ·) (write_additions s v us).1 ∧
    (∀ n ∈ (write_additions s v us).1, ∀ d ∈ s, relevantIdx d → d.index < n) := by
  refine ⟨?_, rfl, (write_additions_strict_mono s v us).2, ?_,
    (write_additions_strict_mono s v us).1⟩
  · intro d hd hr
    exact index_lt_allocIndex s d hd hr
  · exact ((write_additions_strict_mono s v us).2).imp Nat.ne_of_lt

/-- C7 (witness): with prior maximum index 4, the next addition gets
index 5; an empty collection gets index 0; and two further iterated
additions allocate past the existing maximum. -/
theorem write_addition_allocates_fresh_witness :
    (Doc.mk 4 (some .base) [] none []).index <
      (write_addition [⟨4, some .base, [], none, []⟩] 1 []).1 ∧
    (write_addition ([] : Collection) 1 []).1 = 0 ∧
    (Doc.mk 4 (some .base) [] none []).index < 5 :=
  ⟨(write_addition_allocates_fresh [⟨4, some .base, [], none, []⟩] 1 [] [[], []]).1
      ⟨4, some .base, [], none, []⟩ (List.mem_cons_self _ _) (by decide),
   (write_addition_allocates_fresh [⟨4, some .base, [], none, []⟩] 1 [] [[], []]).2.1,
   (write_addition_allocates_fresh [⟨4, some .base, [], none, []⟩] 1 [] [[], []]).2.2.2.2
      5 (by decide) ⟨4, some .base, [], none, []⟩ (List.mem_cons_self _ _) (by decide)⟩

/-! ### C6: lock exclusivity -/

/-- C6: acquiring an unlocked (or expired) project lock succeeds and
creates a record for the caller; re-acquiring a lock one already holds
succeeds and leaves the record as is; acquiring a lock held by a
different active holder is denied and leaves the record unchanged; and
after the holder releases the lock, a different holder can acquire it. -/
theorem acquire_release_exclusivity (st : Option Lock) (A B : String) (now : Nat)
    (dur : Option Nat) (hAB : A ≠ B) :
    ((st = none ∨ ∃ l, st = some l ∧ lockActive l now = false) →
      (acquire st A now dur).1 = .success ∧
      ∃ l', (acquire st A now dur).2 = some l' ∧ l'.holder = A) ∧
    (∀ l, st = some l → lockActive l now → l.holder = A →
      (acquire st A now dur).1 = .success ∧ (acquire st A now dur).2 = st) ∧
    (∀ l, st = some l → lockActive l now → l.holder = A →
      (acquire st B now dur).1 = .denied ∧ (acquire st B now dur).2 = st) ∧
    (∀ l, st = some l → l.holder = A →
      (acquire (release st A).2 B now dur).1 = .success) := by
  refine ⟨?_, ?_, ?_, ?_⟩
  · rintro (rfl | ⟨l, rfl, hexp⟩)
    · exact ⟨rfl, ⟨_, rfl, rfl⟩⟩
    · exact ⟨by simp [acquire, hexp],
        ⟨⟨A, now, dur.map (now + ·)⟩, by simp [acquire, hexp], rfl⟩⟩
  · rintro l rfl hact rfl
    simp [acquire, hact]
  · rintro l rfl hact hA
    have hBl : l.holder ≠ B := by rw [hA]; exact hAB
    simp [acquire, hact, hBl]
  · rintro l rfl hA
    simp [release, hA, acquire]

/-- C6 (witness): with the lock held by alice (no expiry) at time 5:
acquiring when unlocked succeeds, alice re-acquires successfully, bob is
denied, and after alice releases, bob acquires successfully. -/
theorem acquire_release_exclusivity_witness :
    (acquire none "alice" 5 none).1 = .success ∧
    (acquire (some ⟨"alice", 0, none⟩) "alice" 5 none).1 = .success ∧
    (acquire (some ⟨"alice", 0, none⟩) "bob" 5 none).1 = .denied ∧
    (acquire (release (some ⟨"alice", 0, none⟩) "alice").2 "bob" 5 none).1 = .success :=
  ⟨((acquire_release_exclusivity none "alice" "bob" 5 none (by decide)).1 (Or.inl rfl)).1,
   ((acquire_release_exclusivity (some ⟨"alice", 0, none⟩) "alice" "bob" 5 none
      (by decide)).2.1 ⟨"alice", 0, none⟩ rfl (by decide) rfl).1,
   ((acquire_release_exclusivity (some ⟨"alice", 0, none⟩) "alice" "bob" 5 none
      (by decide)).2.2.1 ⟨"alice", 0, none⟩ rfl (by decide) rfl).1,
   (acquire_release_exclusivity (some ⟨"alice", 0, none⟩) "alice" "bob" 5 none
      (by decide)).2.2.2 ⟨"alice", 0, none⟩ rfl rfl⟩

/-! ### C8: timeseries single read versus multi read -/

/-- C8: the single timeseries read returns a series iff the metadata
filter matches exactly one stored document — NotFound on zero matches,
Conflict on two or more — while the multi read returns the series of all
matching documents. -/
theorem get_timeseries_single_vs_multi (coll : List TsDoc) (flt : List (String × String)) :
    ((coll.filter (tsMatches flt)).length = 0 →
      get_timeseries_from_db coll flt = .error .notFound) ∧
    (∀ d, coll.filter (tsMatches flt) = [d] →
      get_timeseries_from_db coll flt = .ok d.series ∧
      multi_get_timeseries_from_db coll flt = [d.series]) ∧
    (2 ≤ (coll.filter (tsMatches flt)).length →
      get_timeseries_from_db coll flt = .error .conflict) ∧
    ((∃ x, get_timeseries_from_db coll flt = .ok x) ↔
      (coll.filter (tsMatches flt)).length = 1) ∧
    multi_get_timeseries_from_db coll flt = (coll.filter (tsMatches flt)).map TsDoc.series := by
  refine ⟨?_, ?_, ?_, ?_, rfl⟩
  · intro h0
    rw [List.length_eq_zero] at h0
    simp [get_timeseries_from_db, h0]
  · intro d hd
    constructor
    · simp [get_timeseries_from_db, hd]
    · simp [multi_get_timeseries_from_db, hd]
  · intro h2
    unfold get_timeseries_from_db
    rcases hm : coll.filter (tsMatches flt) with _ | ⟨d1, _ | ⟨d2, t⟩⟩
    · rw [hm] at h2; simp at h2
    · rw [hm] at h2; simp at h2
    · rfl
  · constructor
    · rintro ⟨x, hx⟩
      unfold get_timeseries_from_db at hx
      rcases hm : coll.filter (tsMatches flt) with _ | ⟨d1, _ | ⟨d2, t⟩⟩ <;> rw [hm] at hx
      · cases hx
      · simp
      · cases hx
    · intro h1
      obtain ⟨d, hd⟩ := List.length_eq_one.mp h1
      exact ⟨d.series, by simp [get_timeseries_from_db, hd]⟩

/-- C8 (witness): two stored series with identical `data_type = p_mw`
metadata make the single read raise Conflict while the multi read
returns both; a single match is returned, an empty match is NotFound. -/
theorem get_timeseries_single_vs_multi_witness :
    get_timeseries_from_db [⟨"p_mw", [], [1]⟩, ⟨"p_mw", [], [2]⟩]
      [("data_type", "p_mw")] = .error .conflict ∧
    multi_get_timeseries_from_db [⟨"p_mw", [], [1]⟩, ⟨"p_mw", [], [2]⟩]
      [("data_type", "p_mw")] = [[1], [2]] ∧
    get_timeseries_from_db [⟨"p_mw", [], [1]⟩] [("data_type", "p_mw")] = .ok [1] ∧
    get_timeseries_from_db ([] : List TsDoc) [("data_type", "p_mw")] = .error .notFound :=
  ⟨(get_timeseries_single_vs_multi [⟨"p_mw", [], [1]⟩, ⟨"p_mw", [], [2]⟩]
      [("data_type", "p_mw")]).2.2.1 (by decide),
   ((get_timeseries_single_vs_multi [⟨"p_mw", [], [1]⟩, ⟨"p_mw", [], [2]⟩]
      [("data_type", "p_mw")]).2.2.2.2).trans (by decide),
   ((get_timeseries_single_vs_multi [⟨"p_mw", [], [1]⟩]
      [("data_type", "p_mw")]).2.1 ⟨"p_mw", [], [1]⟩ (by decide)).1,
   (get_timeseries_single_vs_multi ([] : List TsDoc)
      [("data_type", "p_mw")]).1 (by decide)⟩

/-! ### C10: networks unique by `net_id` only -/

theorem netId_le_maxNetId (reg : List NetEntry) (e : NetEntry) (he : e ∈ reg) :
    ∃ m, maxNetId reg = some m ∧ e.netId ≤ m := by
  induction reg with
  | nil => cases he
  | cons a rest ih =>
    rcases List.mem_cons.mp he with rfl | he'
    · cases hm : maxNetId rest with
      | none => exact ⟨e.netId, by simp [maxNetId, hm], le_refl _⟩
      | some m => exact ⟨max e.netId m, by simp [maxNetId, hm], le_max_left _ _⟩
    · obtain ⟨m, hm, hle⟩ := ih he'
      unfold maxNetId
      rw [hm]
      exact ⟨max a.netId m, rfl, le_trans hle (le_max_right _ _)⟩

theorem netId_lt_allocNetId (reg : List NetEntry) (e : NetEntry) (he : e ∈ reg) :
    e.netId < allocNetId reg := by
  obtain ⟨m, hm, hle⟩ := netId_le_maxNetId reg e he
  have : allocNetId reg = m + 1 := by simp only [allocNetId, hm]
  omega

/-- C10: storing two networks under the same name in one project
succeeds without any error (the write is total), allocates distinct
`net_id`s, and both networks stay retrievable through `get_network`,
which looks them up solely by `net_id`. -/
theorem networks_unique_by_net_id (reg : List NetEntry) (nm : String)
    (d1 d2 : List (String × Attrs)) :
    (write_network_to_db reg nm d1 none).1 ≠
      (write_network_to_db (write_network_to_db reg nm d1 none).2 nm d2 none).1 ∧
    get_network (write_network_to_db (write_network_to_db reg nm d1 none).2 nm d2 none).2
        (write_network_to_db reg nm d1 none).1 =
      some ⟨(write_network_to_db reg nm d1 none).1, nm, d1⟩ ∧
    get_network (write_network_to_db (write_network_to_db reg nm d1 none).2 nm d2 none).2
        (write_network_to_db (write_network_to_db reg nm d1 none).2 nm d2 none).1 =
      some ⟨(write_network_to_db (write_network_to_db reg nm d1 none).2 nm d2 none).1,
        nm, d2⟩ := by
  have e1def : write_network_to_db reg nm d1 none =
      (allocNetId reg, reg ++ [⟨allocNetId reg, nm, d1⟩]) := rfl
  rw [e1def]
  have e2def : write_network_to_db (reg ++ [⟨allocNetId reg, nm, d1⟩]) nm d2 none =
      (allocNetId (reg ++ [⟨allocNetId reg, nm, d1⟩]),
        (reg ++ [⟨allocNetId reg, nm, d1⟩]) ++
          [⟨allocNetId (reg ++ [⟨allocNetId reg, nm, d1⟩]), nm, d2⟩]) := rfl
  rw [e2def]
  have hlt : allocNetId reg < allocNetId (reg ++ [⟨allocNetId reg, nm, d1⟩]) :=
    netId_lt_allocNetId _ ⟨allocNetId reg, nm, d1⟩
      (List.mem_append_right _ (List.mem_singleton_self _))
  refine ⟨Nat.ne_of_lt hlt, ?_, ?_⟩
  · apply find?_eq_some_unique
    · exact List.mem_append_left _ (List.mem_append_right _ (List.mem_singleton_self _))
    · simp
    · intro e he hpe
      simp only [decide_eq_true_eq] at hpe
      rcases List.mem_append.mp he with he' | he'
      · rcases List.mem_append.mp he' with he'' | he''
        · have := netId_lt_allocNetId reg e he''
          omega
        · exact List.mem_singleton.mp he''
      · exfalso
        rw [List.mem_singleton.mp he'] at hpe
        simp at hpe
        omega
  · apply find?_eq_some_unique
    · exact List.mem_append_right _ (List.mem_singleton_self _)
    · simp
    · intro e he hpe
      simp only [decide_eq_true_eq] at hpe
      rcases List.mem_append.mp he with he' | he'
      · have := netId_lt_allocNetId (reg ++ [⟨allocNetId reg, nm, d1⟩]) e he'
        omega
      · exact List.mem_singleton.mp he'

/-! ### C4: table codec round trip -/

theorem decode_encode (v : AttrValue) (ty : AttrType) (h : typeMatches v ty) :
    decodeValue ty (encodeValue v) = some v := by
  cases v <;> cases ty <;> first | rfl | simp [typeMatches] at h

theorem decodeRow_skip (rest : Schema) (k0 : String) (w : DocValue)
    (t : List (String × DocValue)) (hk : ¬ k0 ∈ rest.map Prod.fst) :
    decodeRow rest ((k0, w) :: t) = decodeRow rest t := by
  induction rest with
  | nil => rfl
  | cons nt r ih =>
    simp only [List.map_cons, List.mem_cons, not_or] at hk
    obtain ⟨h1, h2⟩ := hk
    have hbeq : (nt.1 == k0) = false := by
      simp only [beq_eq_false_iff_ne, ne_eq]
      exact fun hh => h1 hh.symm
    unfold decodeRow
    rw [ih h2]
    have hl : ((k0, w) :: t).lookup nt.1 = t.lookup nt.1 := by
      simp [List.lookup, hbeq]
    rw [hl]

theorem decodeRow_rows (sch : Schema) (vals : List AttrValue)
    (hwt : rowWellTyped sch vals)
    (hnodup : (sch.map Prod.fst).Nodup) :
    decodeRow sch ((sch.map Prod.fst).zip (vals.map encodeValue)) = some vals := by
  induction sch generalizing vals with
  | nil =>
    cases vals with
    | nil => rfl
    | cons v vs => simp [rowWellTyped] at hwt
  | cons nt rest ih =>
    cases vals with
    | nil => simp [rowWellTyped] at hwt
    | cons v vs =>
      simp only [rowWellTyped, Bool.and_eq_true] at hwt
      obtain ⟨hty, hwt'⟩ := hwt
      simp only [List.map_cons, List.zip_cons_cons]
      simp only [List.map_cons, List.nodup_cons] at hnodup
      obtain ⟨hnot, hnd⟩ := hnodup
      unfold decodeRow
      rw [decodeRow_skip rest nt.1 (encodeValue v) _ hnot]
      rw [ih vs hwt' hnd]
      have hl : (((nt.1, encodeValue v) ::
          ((rest.map Prod.fst).zip (vs.map encodeValue))).lookup nt.1) =
          some (encodeValue v) := by
        simp [List.lookup]
      rw [hl]
      simp only [Option.some_bind]
      rw [decode_encode v nt.2 hty]

/-- C4: for every table whose rows are well typed at a schema with
pairwise distinct attribute names, decoding the encoded documents
reproduces the table attribute-for-attribute — explicit "no value"
markers and tagged non-primitive values included — and in particular
both directions of the codec succeed on such input. -/
theorem table_codec_round_trip (sch : Schema) (rows : List TableRow)
    (hnodup : (sch.map Prod.fst).Nodup)
    (hwt : ∀ r ∈ rows, rowWellTyped sch r.2) :
    documents_to_table sch (rows_to_documents sch rows) = some rows := by
  induction rows with
  | nil => rfl
  | cons r rest ih =>
    obtain ⟨idx, vals⟩ := r
    simp only [rows_to_documents, List.map_cons]
    unfold documents_to_table
    rw [decodeRow_rows sch vals (hwt (idx, vals) (List.mem_cons_self _ _)) hnodup]
    have ih' := ih fun r hr => hwt r (List.mem_cons_of_mem _ hr)
    simp only [rows_to_documents] at ih'
    rw [ih']

/-- C4 (witness): a one-row table exercising every supported attribute
type — numeric, boolean, categorical, text, tagged object, geometry —
plus an explicit missing value survives the round trip unchanged. -/
theorem table_codec_round_trip_witness :
    documents_to_table
        [("a", .numeric), ("b", .boolean), ("c", .categorical), ("d", .text),
          ("e", .objType), ("f", .geometry), ("g", .numeric)]
        (rows_to_documents
          [("a", .numeric), ("b", .boolean), ("c", .categorical), ("d", .text),
            ("e", .objType), ("f", .geometry), ("g", .numeric)]
          [(0, [.num 1, .bVal true, .cat "x", .txt "y", .objVal "T" "P",
            .geo "point" [(1, 2)], .missing])]) =
      some [(0, [.num 1, .bVal true, .cat "x", .txt "y", .objVal "T" "P",
        .geo "point" [(1, 2)], .missing])] :=
  table_codec_round_trip _ _ (by decide) (by decide)

end PandaHub
